import Mathlib

/-!
Verification of the Enigma V300 option-key calculator (C++ implementation,
file enigma_v300_pure_cpp.cpp).

The two transform engines are embedded as pure Lean functions over lists of
characters.  C++ int arithmetic is modelled with Int, using Int.tmod and
Int.tdiv for the truncating operators of C++.  A process exit on invalid
input, and an out-of-range std::vector::at access, are both modelled as the
value none; a normal return is some.  Static tables are plain lists; the
values stored in them are in range of Nat, so they are lists of Nat and get
cast to Int where the C++ code mixes them into int arithmetic.
-/

/-! ## Constants and static tables (source lines 16 - 130) -/

def PRODUCT_CODE_SIZE : Nat := 4

def OPTION_CODE_SIZE : Nat := 3

def SERIAL_NUMBER_SIZE_ENIGMA2 : Nat := 7

def SERIAL_NUMBER_SIZE_ENIGMAC : Nat := 10

def CHECK_SUM_SIZE : Nat := 2

def KEY_LENGTH : Nat :=
  PRODUCT_CODE_SIZE + OPTION_CODE_SIZE + SERIAL_NUMBER_SIZE_ENIGMA2 + CHECK_SUM_SIZE

def SERIAL_LOCATION : Nat := CHECK_SUM_SIZE + PRODUCT_CODE_SIZE

def PRODUCT_LOCATION : Nat := CHECK_SUM_SIZE

def OPTION_LOCATION : Nat :=
  CHECK_SUM_SIZE + PRODUCT_CODE_SIZE + SERIAL_NUMBER_SIZE_ENIGMA2

def MAX_CHECK_SUM : Int := 26000

def ENIGMA_C_ROTOR : List Nat :=
  [5, 4, 14, 11, 1, 8, 10, 13, 7, 3, 15, 0, 2, 12, 9, 6]

def ENIGMA2_E_ROTOR_10 : List Nat := [5, 4, 1, 8, 7, 3, 0, 2, 9, 6]

def ENIGMA2_E_ROTOR_26 : List Nat :=
  [16, 8, 25, 5, 23, 21, 18, 17, 2, 1, 7, 24, 15, 11, 9, 6, 3, 0, 19, 12, 22, 14, 10, 4, 20, 13]

def ENIGMA2_D_ROTOR_10 : List Nat := [6, 2, 7, 5, 1, 0, 9, 4, 3, 8]

def ENIGMA2_D_ROTOR_26 : List Nat :=
  [17, 9, 8, 16, 23, 3, 15, 10, 1, 14, 22, 13, 19, 25, 21, 12, 0, 7, 6, 18, 24, 5, 20, 4, 11, 2]

/-! ## Character and vector helpers -/

/-- Access of a std::vector with an int index.  The C++ member at converts
the index to size_t and throws std::out_of_range when it does not address an
element; a negative int becomes a huge size_t and also throws.  Both failure
ways are none here. -/
def vecAtI (v : List Nat) (i : Int) : Option Nat :=
  if i < 0 then none else v.get? i.toNat

/-- std::tolower in the C locale: lower only the ASCII range A - Z.  The
Lean predicate Char.isUpper tests exactly that range. -/
def asciiToLower (c : Char) : Char :=
  if c.isUpper then Char.ofNat (c.toNat + 32) else c

/-- std::isxdigit in the C locale. -/
def isXDigit (c : Char) : Bool :=
  c.isDigit || ('a' ≤ c && c ≤ 'f') || ('A' ≤ c && c ≤ 'F')

/-- The nibble value the Cipher-A code computes for a character that has
already passed tolower and isxdigit: a digit maps to its value, a letter in
a - f to 10 - 15 (the C++ expression c - 97 + 10). -/
def hexValN (c : Char) : Nat :=
  if '0' ≤ c ∧ c ≤ '9' then c.toNat - 48 else c.toNat - 87

/-- The hex digit rendering used by both Cipher-A loops: values below 10
become decimal digit characters, 10 - 15 become lowercase a - f (the C++
expression temp - 10 plus the code of a). -/
def hexCharN (t : Nat) : Char :=
  if t < 10 then Char.ofNat (t + 48) else Char.ofNat (t + 87)

/-! ## Cipher-A engine: enigma_c_encrypt (source lines 132 - 150) -/

/-- The loop body of enigma_c_encrypt.  The first argument is the remaining
input suffix, index the current loop index, outputValue the running
accumulator.  The accumulator is a XOR of table entries, hence below 16, so
it is carried as a Nat exactly as the int in the source stays in 0 - 15. -/
def enigma_c_encrypt_go : List Char → Nat → Nat → Option (List Char)
  | [], _, _ => some []
  | ch :: rest, index, outputValue =>
    let c := asciiToLower ch
    if isXDigit c then
      let inputValue := hexValN c
      match ENIGMA_C_ROTOR.get? ((inputValue + index) % 16) with
      | none => none
      | some r =>
        let newOut := r ^^^ outputValue
        let temp := newOut % 16
        (hexCharN temp :: ·) <$> enigma_c_encrypt_go rest (index + 1) newOut
    else none

/-- enigma_c_encrypt.  The source reads input_key.at(index) for index below
len; when the input is shorter than len that access throws, which is the
none branch here (no partial output is observable, the process dies). -/
def enigma_c_encrypt (inputKey : List Char) (len : Nat) : Option (List Char) :=
  if inputKey.length < len then none else enigma_c_encrypt_go (inputKey.take len) 0 0

/-! ## Cipher-A engine: enigma_c_decrypt (source lines 152 - 181) -/

/-- The linear search of the decrypt loop: output_value starts at 0 and is
set to the first index whose table entry matches, so a missing value leaves
0 exactly as the C++ loop does. -/
def rotorFindIdx (v : Nat) : Nat :=
  match ENIGMA_C_ROTOR.findIdx? (fun x => x == v) with
  | some i => i
  | none => 0

/-- The loop body of enigma_c_decrypt; xorValue carries the previous
ciphertext nibble.  The source computes (output_value - index) % 16 in int
arithmetic (truncating remainder) and then adds 16 when negative; that is
kept literally with Int.tmod. -/
def enigma_c_decrypt_go : List Char → Nat → Nat → Option (List Char)
  | [], _, _ => some []
  | ch :: rest, index, xorValue =>
    let c := asciiToLower ch
    if isXDigit c then
      let oldOutput := hexValN c
      let inputValue := oldOutput ^^^ xorValue
      let outputValue := rotorFindIdx inputValue
      let t0 : Int := ((outputValue : Int) - (index : Int)).tmod 16
      let temp : Int := if t0 < 0 then t0 + 16 else t0
      (hexCharN temp.toNat :: ·) <$> enigma_c_decrypt_go rest (index + 1) oldOutput
    else none

/-- enigma_c_decrypt, with the same length convention as enigma_c_encrypt. -/
def enigma_c_decrypt (inputKey : List Char) (len : Nat) : Option (List Char) :=
  if inputKey.length < len then none else enigma_c_decrypt_go (inputKey.take len) 0 0

example : enigma_c_encrypt "046103333000".toList 12 = some "5dabade112dd".toList := by decide

example :
    enigma_c_decrypt "5dabade112dd".toList 12 = some "046103333000".toList := by decide

/-! ## Cipher-B engine: enigma2_c_encrypt (source lines 204 - 243) -/

/-- The per-character value of the Cipher-B code: a decimal digit maps to
its value, any other character to its code minus the code of A (the C++
expression is isdigit(c) ? c - 48 : c - 65, on int). -/
def charValB (c : Char) : Int :=
  if c.isDigit then (c.toNat : Int) - 48 else (c.toNat : Int) - 65

/-- The checksum accumulation loop shared by both Cipher-B passes: starting
from an accumulator s at position i, each character adds i + d + i * d. -/
def enigma2_checksum_go : List Char → Nat → Int → Int
  | [], _, s => s
  | c :: rest, i, s =>
    enigma2_checksum_go rest (i + 1) (s + (i : Int) + charValB c + (i : Int) * charValB c)

/-- The checksum-writing stage of enigma2_c_encrypt: the checksum over
positions 2 - 15 starting at 1, folded to 100 - (sum tmod 100), its ones
digit written at position 0 and its tens digit at position 1.  The source
copies the input and overwrites at(0) and at(1); for the 16-character input
this is the same two-cons list. -/
def enigma2_with_checksum (inputKey : List Char) : List Char :=
  let checksum0 := enigma2_checksum_go (inputKey.drop 2) 2 1
  let checksum : Int := 100 - checksum0.tmod 100
  Char.ofNat ((checksum.tmod 10) + 48).toNat ::
    Char.ofNat (((checksum.tdiv 10).tmod 10) + 48).toNat :: inputKey.drop 2

/-- The rotor substitution loop of enigma2_c_encrypt; runningSum is the
running_sum accumulator, updated after each substitution with the value of
the character before substitution. -/
def enigma2_encrypt_go : List Char → Nat → Int → Option (List Char)
  | [], _, _ => some []
  | c :: rest, i, runningSum =>
    let tempSum := charValB c
    if c.isDigit then
      match vecAtI ENIGMA2_E_ROTOR_10 ((tempSum + MAX_CHECK_SUM - runningSum).tmod 10) with
      | none => none
      | some v =>
        (Char.ofNat (v + 48) :: ·) <$>
          enigma2_encrypt_go rest (i + 1)
            (runningSum + (i : Int) + tempSum + (i : Int) * tempSum)
    else
      match vecAtI ENIGMA2_E_ROTOR_26 ((tempSum + MAX_CHECK_SUM - runningSum).tmod 26) with
      | none => none
      | some v =>
        (Char.ofNat (65 + v) :: ·) <$>
          enigma2_encrypt_go rest (i + 1)
            (runningSum + (i : Int) + tempSum + (i : Int) * tempSum)

/-- enigma2_c_encrypt.  A length other than KEY_LENGTH = 16 exits the
process, modelled as none. -/
def enigma2_c_encrypt (inputKey : List Char) : Option (List Char) :=
  if inputKey.length ≠ KEY_LENGTH then none
  else enigma2_encrypt_go (enigma2_with_checksum inputKey) 0 0

/-! ## Cipher-B engine: enigma2_c_decrypt (source lines 245 - 266) -/

/-- The inverse substitution loop of enigma2_c_decrypt.  It returns the
decoded characters together with the final value of the checksum
accumulator, which the caller gates on.  The accumulator adds
i + d + i * d with d the substituted (decoded) value. -/
def enigma2_decrypt_go : List Char → Nat → Int → Option (List Char × Int)
  | [], _, checksum => some ([], checksum)
  | c :: rest, i, checksum =>
    if c.isDigit then
      match vecAtI ENIGMA2_D_ROTOR_10 ((c.toNat : Int) - 48) with
      | none => none
      | some v =>
        let tempSum := ((v : Int) + checksum).tmod 10
        (fun p => (Char.ofNat (tempSum + 48).toNat :: p.1, p.2)) <$>
          enigma2_decrypt_go rest (i + 1)
            (checksum + (i : Int) + tempSum + (i : Int) * tempSum)
    else
      match vecAtI ENIGMA2_D_ROTOR_26 ((c.toNat : Int) - 65) with
      | none => none
      | some v =>
        let tempSum := ((v : Int) + checksum).tmod 26
        (fun p => (Char.ofNat (65 + tempSum).toNat :: p.1, p.2)) <$>
          enigma2_decrypt_go rest (i + 1)
            (checksum + (i : Int) + tempSum + (i : Int) * tempSum)

/-- enigma2_c_decrypt.  After the loop the source adds 8 times the value of
the decoded digit at position 1 and clears the output when the total is not
divisible by 100; the cleared string is the some [] result.  The read of
output_key.at(1) is modelled with get? (the decoded list of a 16-character
input always has a position 1). -/
def enigma2_c_decrypt (inputKey : List Char) : Option (List Char) :=
  if inputKey.length ≠ KEY_LENGTH then none
  else
    match enigma2_decrypt_go inputKey 0 0 with
    | none => none
    | some (out, checksum) =>
      match out.get? 1 with
      | none => none
      | some c1 =>
        let total := checksum + 8 * ((c1.toNat : Int) - 48)
        if total.tmod 100 ≠ 0 then some [] else some out

example :
    enigma2_c_encrypt "0069630000607007".toList = some "6406257948597747".toList := by decide

example :
    enigma2_c_encrypt "0069631234567007".toList = some "9225940719507747".toList := by decide

example :
    enigma2_c_encrypt "0070011234567002".toList = some "8944937150971162".toList := by decide

/-! ## Option parsing and the two check functions (source lines 183 - 202, 268 - 281) -/

/-- Digit-prefix accumulation of std::stoi: consume decimal digits until the
first other character and fold them into the value. -/
def stoiLoop : List Char → Int → Int
  | [], acc => acc
  | c :: rest, acc =>
    if c.isDigit then stoiLoop rest (acc * 10 + ((c.toNat : Int) - 48)) else acc

/-- Model of std::stoi as called in this program.  stoi accepts an optional
sign followed by at least one decimal digit, parses the longest digit
prefix, and throws std::invalid_argument (none here) when no digit can be
consumed.  The strings this program passes to stoi are substrings of
decrypted keys, hence contain neither whitespace (which stoi would skip)
nor values overflowing int, so those aspects need no modelling. -/
def stoiModel : List Char → Option Int
  | [] => none
  | c :: rest =>
    if c = '-' then
      match rest with
      | c2 :: _ => if c2.isDigit then some (-(stoiLoop rest 0)) else none
      | [] => none
    else if c = '+' then
      match rest with
      | c2 :: _ => if c2.isDigit then some (stoiLoop rest 0) else none
      | [] => none
    else if c.isDigit then some (stoiLoop (c :: rest) 0) else none

/-- enigma_c_check_option_key.  The loop filling reversed_serial reads
decrypted_key.at(9 - i) for i = 0 .. 9, giving the reverse of the first ten
decoded characters (the decode of a 12-character key always has them).  A
propagating exception, from decrypt or from stoi, is none. -/
def enigma_c_check_option_key (option : Int) (key : List Char)
    (serialNumber : List Char) : Option Bool :=
  if key.isEmpty then some false
  else if key = "bladerules".toList then some true
  else
    match enigma_c_decrypt key 12 with
    | none => none
    | some decryptedKey =>
      let reversedSerial := (decryptedKey.take 10).reverse
      if reversedSerial ≠ serialNumber then some false
      else
        match stoiModel ((decryptedKey.drop 10).take 2) with
        | none => none
        | some opt => some (opt == option)

/-- enigma2_c_check_option_key: decode, reject the empty (checksum-failed)
result, then compare the parsed 3-character option field at
OPTION_LOCATION. -/
def enigma2_c_check_option_key (option : Int) (key : List Char) : Option Bool :=
  if key.isEmpty then some false
  else
    match enigma2_c_decrypt key with
    | none => none
    | some decryptedKey =>
      if decryptedKey.isEmpty then some false
      else
        match stoiModel ((decryptedKey.drop OPTION_LOCATION).take OPTION_CODE_SIZE) with
        | none => none
        | some opt => some (opt == option)

/-! ## Key assembly (source lines 436 - 441 and 548) -/

/-- The Cipher-A plaintext built by calculate_nettool_option_key: the
serial number, the decimal rendering of the option number and a final 0,
then the whole 12-character string reversed (the source loop writes
reversed_key.at(i) = input_key.at(11 - i)). -/
def nettool_plaintext (serialNumber : List Char) (optionNumber : Nat) : List Char :=
  (serialNumber ++ (toString optionNumber).toList ++ ['0']).reverse

/-- The Cipher-B plaintext built by calculate_enigma2_option_key: the two
placeholder zeros, then product code, serial number and option code. -/
def enigma2_input_key (productCode serialNumber optionCode : List Char) : List Char :=
  "00".toList ++ productCode ++ serialNumber ++ optionCode

example :
    enigma_c_encrypt (nettool_plaintext "0003333016".toList 4) 12 =
      some "5dabade112dd".toList := by decide

/-- The character class of a Cipher-B key as validated by the caller
(check_enigma2_option_key, source lines 564 - 579): decimal digits and
uppercase letters A - Z. -/
def validB (c : Char) : Bool := c.isDigit || c.isUpper

/-! ## Bridging lemmas between character predicates and character codes -/

theorem isDigit_iff (c : Char) : c.isDigit = true ↔ 48 ≤ c.toNat ∧ c.toNat ≤ 57 := by
  simp [Char.isDigit, UInt32.le_def, BitVec.le_def]
  rfl

theorem isUpper_iff (c : Char) : c.isUpper = true ↔ 65 ≤ c.toNat ∧ c.toNat ≤ 90 := by
  simp [Char.isUpper, UInt32.le_def, BitVec.le_def]
  rfl

theorem isXDigit_iff (c : Char) :
    isXDigit c = true ↔
      (48 ≤ c.toNat ∧ c.toNat ≤ 57) ∨ (97 ≤ c.toNat ∧ c.toNat ≤ 102) ∨
        (65 ≤ c.toNat ∧ c.toNat ≤ 70) := by
  simp [isXDigit, Char.isDigit, Char.le_def, UInt32.le_def, BitVec.le_def]
  show (_ ∨ _) ∨ _ ↔ _
  tauto

theorem hex_abstract_facts (c : Char) (h : isXDigit c = true) :
    isXDigit (asciiToLower c) = true ∧ (asciiToLower c).isUpper = false ∧
      hexValN (asciiToLower c) < 16 ∧ hexCharN (hexValN (asciiToLower c)) = asciiToLower c := by
  rw [isXDigit_iff] at h
  obtain hh := Char.ofNat_toNat c
  rcases h with ⟨h1, h2⟩ | ⟨h1, h2⟩ | ⟨h1, h2⟩ <;>
  · rw [← hh]
    generalize hg : c.toNat = n at h1 h2
    interval_cases n <;> decide

/-! ## Arithmetic lemmas about the truncating remainder -/

theorem tmod16_small (a : Int) (h1 : -16 < a) (h2 : a < 16) : a.tmod 16 = a := by
  match a with
  | Int.ofNat m => exact Int.tmod_eq_of_lt (Int.ofNat_nonneg m) h2
  | Int.negSucc m =>
    rw [Int.negSucc_eq] at h1 h2 ⊢
    have hm : m + 1 < 16 := by omega
    show -(Int.ofNat ((m + 1) % 16)) = -(↑m + 1)
    rw [Nat.mod_eq_of_lt hm, Int.ofNat_eq_natCast]
    push_cast
    ring

theorem fixup_eq_emod (a : Int) (h1 : -16 < a) (h2 : a < 16) :
    (if a.tmod 16 < 0 then a.tmod 16 + 16 else a.tmod 16) = a % 16 := by
  rw [tmod16_small a h1 h2]
  by_cases h : a < 0
  · rw [if_pos h]
    have e2 : (a + 16 * 1) % 16 = a % 16 := Int.add_mul_emod_self_left a 16 1
    have e3 : (a + 16) % 16 = a + 16 := Int.emod_eq_of_lt (by omega) (by omega)
    omega
  · rw [if_neg h]
    exact (Int.emod_eq_of_lt (by omega) h2).symm

theorem emod_shift (v i : Nat) (hv : v < 16) :
    ((((v + i) % 16 : Nat) : Int) - (i : Nat)) % 16 = (v : Int) := by
  have h1 : (((v + i) % 16 : Nat) : Int) = ((v + i : Nat) : Int) % 16 := by push_cast; ring
  rw [h1, Int.sub_emod, Int.emod_emod_of_dvd _ (dvd_refl 16), ← Int.sub_emod]
  push_cast
  have h2 : (v : Int) + i - i = v := by ring
  rw [h2, Int.emod_eq_of_lt (by omega) (by omega)]

/-! ## Concrete facts about the Cipher-A table, established by evaluation -/

theorem rotor_facts :
    ∀ k, k < 16 →
      ENIGMA_C_ROTOR.get? k = some ((ENIGMA_C_ROTOR.get? k).getD 0) ∧
        (ENIGMA_C_ROTOR.get? k).getD 0 < 16 ∧
        rotorFindIdx ((ENIGMA_C_ROTOR.get? k).getD 0) = k := by decide

theorem hexCharN_facts :
    ∀ t, t < 16 →
      asciiToLower (hexCharN t) = hexCharN t ∧ isXDigit (hexCharN t) = true ∧
        hexValN (hexCharN t) = t := by decide

theorem xor16 {x y : Nat} (hx : x < 16) (hy : y < 16) : x ^^^ y < 16 := by
  have h4 : (16 : Nat) = 2 ^ 4 := by norm_num
  rw [h4] at hx hy ⊢
  exact Nat.xor_lt_two_pow hx hy

/-! ## Cipher-A round trip -/

theorem enigma_c_go_roundtrip (cs : List Char) :
    ∀ i a : Nat, (∀ c ∈ cs, isXDigit c = true) → a < 16 → i + cs.length ≤ 12 →
      ∃ os, enigma_c_encrypt_go cs i a = some os ∧ os.length = cs.length ∧
        enigma_c_decrypt_go os i a = some (cs.map asciiToLower) := by
  induction cs with
  | nil =>
    intro i a _ _ _
    exact ⟨[], rfl, rfl, rfl⟩
  | cons ch rest ih =>
    intro i a hval ha hlen
    have hch : isXDigit ch = true := hval ch (List.mem_cons_self ch rest)
    obtain ⟨hx, hup, hvlt, hcv⟩ := hex_abstract_facts ch hch
    obtain ⟨hget, hrlt, hfind⟩ :=
      rotor_facts ((hexValN (asciiToLower ch) + i) % 16) (Nat.mod_lt _ (by norm_num))
    have hil : i ≤ 11 := by simp at hlen; omega
    have hnew : (ENIGMA_C_ROTOR.get? ((hexValN (asciiToLower ch) + i) % 16)).getD 0 ^^^ a < 16 :=
      xor16 hrlt ha
    obtain ⟨os, henc, hoslen, hdec⟩ :=
      ih (i + 1) _ (fun c hc => hval c (List.mem_cons_of_mem _ hc)) hnew
        (by simp at hlen ⊢; omega)
    set v := hexValN (asciiToLower ch) with hv
    set r := (ENIGMA_C_ROTOR.get? ((v + i) % 16)).getD 0 with hr
    refine ⟨hexCharN ((r ^^^ a) % 16) :: os, ?_, ?_, ?_⟩
    · simp only [enigma_c_encrypt_go, hx, if_true, hget, henc, Option.map_some]
    · simp [hoslen]
    · have h16 : (r ^^^ a) % 16 = r ^^^ a := Nat.mod_eq_of_lt hnew
      obtain ⟨hc1, hc2, hc3⟩ := hexCharN_facts (r ^^^ a) hnew
      rw [h16]
      simp only [enigma_c_decrypt_go, hc1, hc2, if_true, hc3]
      have hxor : (r ^^^ a) ^^^ a = r := by
        rw [Nat.xor_assoc, Nat.xor_self, Nat.xor_zero]
      rw [hxor, hfind]
      have hfix := fixup_eq_emod ((((v + i) % 16 : Nat) : Int) - (i : Nat))
        (by push_cast; omega)
        (by have := Nat.mod_lt (v + i) (y := 16) (by norm_num); push_cast; omega)
      rw [hfix, emod_shift v i hvlt]
      simp only [Int.toNat_natCast, hcv, hdec, Option.map_some, List.map_cons]

/-- Top-level Cipher-A round trip: decode of encode is the lowercased
plaintext. -/
theorem enigma_c_roundtrip (P : List Char) (hlen : P.length = 12)
    (hval : ∀ c ∈ P, isXDigit c = true) :
    ∃ K, enigma_c_encrypt P 12 = some K ∧ K.length = 12 ∧
      enigma_c_decrypt K 12 = some (P.map asciiToLower) := by
  obtain ⟨os, henc, holen, hdec⟩ :=
    enigma_c_go_roundtrip P 0 0 hval (by norm_num) (by omega)
  have htake : P.take 12 = P := List.take_of_length_le (by omega)
  refine ⟨os, ?_, by omega, ?_⟩
  · simp [enigma_c_encrypt, hlen, htake, henc]
  · have hoslen12 : os.length = 12 := by omega
    have htake2 : os.take 12 = os := List.take_of_length_le (by omega)
    simp [enigma_c_decrypt, hoslen12, htake2, hdec]

/-! ## Concrete facts about characters and the Cipher-B tables -/

theorem digit_char_facts :
    ∀ n, n < 10 →
      (Char.ofNat (n + 48)).isDigit = true ∧ (Char.ofNat (n + 48)).toNat = n + 48 ∧
        (Char.ofNat (n + 48)).isUpper = false := by decide

theorem letter_char_facts :
    ∀ n, n < 26 →
      (Char.ofNat (65 + n)).isDigit = false ∧ (Char.ofNat (65 + n)).toNat = 65 + n ∧
        (Char.ofNat (65 + n)).isUpper = true := by decide

theorem e10_facts :
    ∀ k, k < 10 →
      vecAtI ENIGMA2_E_ROTOR_10 (k : Nat) = some ((ENIGMA2_E_ROTOR_10.get? k).getD 0) ∧
        (ENIGMA2_E_ROTOR_10.get? k).getD 0 < 10 ∧
        vecAtI ENIGMA2_D_ROTOR_10 (((ENIGMA2_E_ROTOR_10.get? k).getD 0 : Nat) : Int) =
          some k := by decide

theorem e26_facts :
    ∀ k, k < 26 →
      vecAtI ENIGMA2_E_ROTOR_26 (k : Nat) = some ((ENIGMA2_E_ROTOR_26.get? k).getD 0) ∧
        (ENIGMA2_E_ROTOR_26.get? k).getD 0 < 26 ∧
        vecAtI ENIGMA2_D_ROTOR_26 (((ENIGMA2_E_ROTOR_26.get? k).getD 0 : Nat) : Int) =
          some k := by decide

theorem unshift (m d r : Int) (hmd : m ∣ 26000) (hd1 : 0 ≤ d) (hd2 : d < m) :
    (((d + 26000 - r) % m) + r) % m = d := by
  rw [Int.add_emod, Int.emod_emod_of_dvd _ (dvd_refl m), ← Int.add_emod]
  have h1 : d + 26000 - r + r = d + 26000 := by ring
  obtain ⟨c, hc⟩ := hmd
  rw [h1, hc, Int.add_mul_emod_self_left d m c, Int.emod_eq_of_lt hd1 hd2]

theorem enigma2_go_roundtrip (cs : List Char) :
    ∀ (i : Nat) (r : Int), (∀ c ∈ cs, validB c = true) → 0 ≤ r → r ≤ 415 * (i : Int) →
      i + cs.length ≤ 16 →
      ∃ os, enigma2_encrypt_go cs i r = some os ∧ os.length = cs.length ∧
        (∀ j, (os.get? j).map Char.isDigit = (cs.get? j).map Char.isDigit) ∧
        (∀ c ∈ os, validB c = true) ∧
        enigma2_decrypt_go os i r = some (cs, enigma2_checksum_go cs i r) := by
  induction cs with
  | nil =>
    intro i r _ _ _ _
    exact ⟨[], rfl, rfl, fun j => rfl, by simp, rfl⟩
  | cons ch rest ih =>
    intro i r hval hr0 hrub hlen
    have hchv : validB ch = true := hval ch (List.mem_cons_self ch rest)
    have hi15 : (i : Int) ≤ 15 := by
      have h : i ≤ 15 := by simp at hlen; omega
      exact_mod_cast h
    by_cases hd : ch.isDigit = true
    · obtain ⟨hb1, hb2⟩ := (isDigit_iff ch).mp hd
      obtain ⟨d, hcd, hd0, hdlt, hchd⟩ :
          ∃ d : Int, charValB ch = d ∧ 0 ≤ d ∧ d < 10 ∧ (d + 48).toNat = ch.toNat :=
        ⟨(ch.toNat : Int) - 48, by simp [charValB, hd], by omega, by omega, by omega⟩
      have hidx0 : 0 ≤ (d + 26000 - r) % 10 := Int.emod_nonneg _ (by norm_num)
      have hidxlt : (d + 26000 - r) % 10 < 10 := Int.emod_lt_of_pos _ (by norm_num)
      obtain ⟨n, hn⟩ : ∃ n : Nat, (n : Int) = (d + 26000 - r) % 10 :=
        ⟨_, Int.toNat_of_nonneg hidx0⟩
      have hnlt : n < 10 := by omega
      obtain ⟨v, hv10, hEv, hDv⟩ :
          ∃ v, v < 10 ∧ vecAtI ENIGMA2_E_ROTOR_10 (n : Nat) = some v ∧
            vecAtI ENIGMA2_D_ROTOR_10 ((v : Nat) : Int) = some n := by
        obtain ⟨h1, h2, h3⟩ := e10_facts n hnlt
        exact ⟨_, h2, h1, h3⟩
      obtain ⟨hvd1, hvd2, hvd3⟩ := digit_char_facts v hv10
      have hged : 0 ≤ (i : Int) * d := mul_nonneg (by exact_mod_cast Nat.zero_le i) hd0
      have hled : (i : Int) * d ≤ 15 * d := mul_le_mul_of_nonneg_right hi15 hd0
      obtain ⟨os, henc, hlen2, hclass, hosval, hdec⟩ :=
        ih (i + 1) (r + (i : Int) + d + (i : Int) * d)
          (fun c hc => hval c (List.mem_cons_of_mem _ hc))
          (by omega) (by push_cast; omega) (by simp at hlen ⊢; omega)
      refine ⟨Char.ofNat (v + 48) :: os, ?_, by simp [hlen2], ?_, ?_, ?_⟩
      · simp only [enigma2_encrypt_go, hd, if_true, hcd]
        rw [show MAX_CHECK_SUM = (26000 : Int) from rfl,
          Int.tmod_eq_emod (by omega) (by norm_num), ← hn, hEv, henc]
        rfl
      · intro j
        cases j with
        | zero => simp [hvd1, hd]
        | succ j => simpa using hclass j
      · intro c hc
        rcases List.mem_cons.mp hc with h | h
        · subst h
          simp [validB, hvd1]
        · exact hosval c h
      · simp only [enigma2_decrypt_go, hvd1, if_true]
        have hvidx : ((Char.ofNat (v + 48)).toNat : Int) - 48 = ((v : Nat) : Int) := by
          rw [hvd2]; push_cast; ring
        simp only [hvidx, hDv]
        rw [Int.tmod_eq_emod (by omega) (by norm_num), hn,
          unshift 10 d r (by norm_num) hd0 hdlt,
          hchd, Char.ofNat_toNat, hdec]
        simp [enigma2_checksum_go, hcd]
    · have hu : ch.isUpper = true := by
        simp [validB, hd] at hchv
        exact hchv
      obtain ⟨hb1, hb2⟩ := (isUpper_iff ch).mp hu
      have hdfalse : ch.isDigit = false := by
        simp at hd
        exact hd
      obtain ⟨d, hcd, hd0, hdlt, hchd⟩ :
          ∃ d : Int, charValB ch = d ∧ 0 ≤ d ∧ d < 26 ∧ (65 + d).toNat = ch.toNat :=
        ⟨(ch.toNat : Int) - 65, by simp [charValB, hdfalse], by omega, by omega, by omega⟩
      have hidx0 : 0 ≤ (d + 26000 - r) % 26 := Int.emod_nonneg _ (by norm_num)
      have hidxlt : (d + 26000 - r) % 26 < 26 := Int.emod_lt_of_pos _ (by norm_num)
      obtain ⟨n, hn⟩ : ∃ n : Nat, (n : Int) = (d + 26000 - r) % 26 :=
        ⟨_, Int.toNat_of_nonneg hidx0⟩
      have hnlt : n < 26 := by omega
      obtain ⟨v, hv26, hEv, hDv⟩ :
          ∃ v, v < 26 ∧ vecAtI ENIGMA2_E_ROTOR_26 (n : Nat) = some v ∧
            vecAtI ENIGMA2_D_ROTOR_26 ((v : Nat) : Int) = some n := by
        obtain ⟨h1, h2, h3⟩ := e26_facts n hnlt
        exact ⟨_, h2, h1, h3⟩
      obtain ⟨hvd1, hvd2, hvd3⟩ := letter_char_facts v hv26
      have hged : 0 ≤ (i : Int) * d := mul_nonneg (by exact_mod_cast Nat.zero_le i) hd0
      have hled : (i : Int) * d ≤ 15 * d := mul_le_mul_of_nonneg_right hi15 hd0
      obtain ⟨os, henc, hlen2, hclass, hosval, hdec⟩ :=
        ih (i + 1) (r + (i : Int) + d + (i : Int) * d)
          (fun c hc => hval c (List.mem_cons_of_mem _ hc))
          (by omega) (by push_cast; omega) (by simp at hlen ⊢; omega)
      refine ⟨Char.ofNat (65 + v) :: os, ?_, by simp [hlen2], ?_, ?_, ?_⟩
      · simp only [enigma2_encrypt_go, hdfalse, Bool.false_eq_true, if_false, hcd]
        rw [show MAX_CHECK_SUM = (26000 : Int) from rfl,
          Int.tmod_eq_emod (by omega) (by norm_num), ← hn, hEv, henc]
        rfl
      · intro j
        cases j with
        | zero => simp [hvd1, hdfalse]
        | succ j => simpa using hclass j
      · intro c hc
        rcases List.mem_cons.mp hc with h | h
        · subst h
          simp [validB, hvd1, hvd3]
        · exact hosval c h
      · simp only [enigma2_decrypt_go, hvd1, Bool.false_eq_true, if_false]
        have hvidx : ((Char.ofNat (65 + v)).toNat : Int) - 65 = ((v : Nat) : Int) := by
          rw [hvd2]; push_cast; ring
        simp only [hvidx, hDv]
        rw [Int.tmod_eq_emod (by omega) (by norm_num), hn,
          unshift 26 d r (by norm_num) hd0 hdlt,
          hchd, Char.ofNat_toNat, hdec]
        simp [enigma2_checksum_go, hcd]

theorem charValB_nonneg (c : Char) (h : validB c = true) : 0 ≤ charValB c := by
  by_cases hd : c.isDigit = true
  · obtain ⟨h1, h2⟩ := (isDigit_iff c).mp hd
    simp [charValB, hd]
    omega
  · have hdf : c.isDigit = false := by simp at hd; exact hd
    have hu : c.isUpper = true := by
      simp [validB, hdf] at h
      exact h
    obtain ⟨h1, h2⟩ := (isUpper_iff c).mp hu
    simp [charValB, hdf]
    omega

theorem checksum_nonneg (cs : List Char) :
    ∀ (i : Nat) (s : Int), (∀ c ∈ cs, validB c = true) → 0 ≤ s →
      0 ≤ enigma2_checksum_go cs i s := by
  induction cs with
  | nil => intro i s _ hs; exact hs
  | cons c rest ih =>
    intro i s hval hs
    have hc := charValB_nonneg c (hval c (List.mem_cons_self c rest))
    have hm : 0 ≤ (i : Int) * charValB c :=
      mul_nonneg (by exact_mod_cast Nat.zero_le i) hc
    exact ih (i + 1) _ (fun x hx => hval x (List.mem_cons_of_mem _ hx)) (by omega)

theorem checksum_shift (cs : List Char) :
    ∀ (i : Nat) (s t : Int),
      enigma2_checksum_go cs i (s + t) = s + enigma2_checksum_go cs i t := by
  induction cs with
  | nil => intro i s t; rfl
  | cons c rest ih =>
    intro i s t
    show enigma2_checksum_go rest (i + 1) _ = s + enigma2_checksum_go rest (i + 1) _
    rw [show s + t + (i : Int) + charValB c + (i : Int) * charValB c =
      s + (t + (i : Int) + charValB c + (i : Int) * charValB c) from by ring, ih]

theorem enigma2_roundtrip (P : List Char) (hlen : P.length = 16)
    (hval : ∀ c ∈ P, validB c = true) :
    ∃ K, enigma2_c_encrypt P = some K ∧ K.length = 16 ∧
      (∀ c ∈ K, validB c = true) ∧
      (∀ j, (K.get? j).map Char.isDigit = ((enigma2_with_checksum P).get? j).map Char.isDigit) ∧
      ((enigma2_with_checksum P)[0]?).map Char.isDigit = some true ∧
      ((enigma2_with_checksum P)[1]?).map Char.isDigit = some true ∧
      enigma2_c_decrypt K = some (enigma2_with_checksum P) := by
  have hvdrop : ∀ c ∈ P.drop 2, validB c = true := fun c hc => hval c (List.mem_of_mem_drop hc)
  have hs0 : 0 ≤ enigma2_checksum_go (P.drop 2) 2 1 := checksum_nonneg _ 2 1 hvdrop (by norm_num)
  obtain ⟨s, hs⟩ : ∃ s : Int, enigma2_checksum_go (P.drop 2) 2 1 = s := ⟨_, rfl⟩
  rw [hs] at hs0
  have htm : s.tmod 100 = s % 100 := Int.tmod_eq_emod hs0 (by norm_num)
  have hsm0 : 0 ≤ s % 100 := Int.emod_nonneg _ (by norm_num)
  have hsmlt : s % 100 < 100 := Int.emod_lt_of_pos _ (by norm_num)
  -- the two checksum digits
  have hc0 : (100 - s % 100).tmod 10 = (100 - s % 100) % 10 :=
    Int.tmod_eq_emod (by omega) (by norm_num)
  have hd00 : 0 ≤ (100 - s % 100) % 10 := Int.emod_nonneg _ (by norm_num)
  have hd0lt : (100 - s % 100) % 10 < 10 := Int.emod_lt_of_pos _ (by norm_num)
  have htd : (100 - s % 100).tdiv 10 = (100 - s % 100) / 10 :=
    Int.tdiv_eq_ediv (by omega) (by norm_num)
  have hq0 : 0 ≤ (100 - s % 100) / 10 := Int.ediv_nonneg (by omega) (by norm_num)
  have hc1 : ((100 - s % 100) / 10).tmod 10 = ((100 - s % 100) / 10) % 10 :=
    Int.tmod_eq_emod hq0 (by norm_num)
  have hd10 : 0 ≤ ((100 - s % 100) / 10) % 10 := Int.emod_nonneg _ (by norm_num)
  have hd1lt : ((100 - s % 100) / 10) % 10 < 10 := Int.emod_lt_of_pos _ (by norm_num)
  obtain ⟨n0, hn0⟩ : ∃ n : Nat, ((100 - s % 100) % 10 + 48).toNat = n := ⟨_, rfl⟩
  obtain ⟨n1, hn1⟩ : ∃ n : Nat, (((100 - s % 100) / 10) % 10 + 48).toNat = n := ⟨_, rfl⟩
  have hn0b : 48 ≤ n0 ∧ n0 < 58 := by omega
  have hn1b : 48 ≤ n1 ∧ n1 < 58 := by omega
  obtain ⟨g01, g02, g03⟩ := digit_char_facts (n0 - 48) (by omega)
  obtain ⟨g11, g12, g13⟩ := digit_char_facts (n1 - 48) (by omega)
  have hn0e : n0 - 48 + 48 = n0 := by omega
  have hn1e : n1 - 48 + 48 = n1 := by omega
  rw [hn0e] at g01 g02 g03
  rw [hn1e] at g11 g12 g13
  -- the checksum-written plaintext
  have hW : enigma2_with_checksum P = Char.ofNat n0 :: Char.ofNat n1 :: P.drop 2 := by
    simp only [enigma2_with_checksum, hs, htm, hc0, htd, hc1, hn0, hn1]
  have hWlen : (enigma2_with_checksum P).length = 16 := by
    rw [hW]
    simp [hlen]
  have hWval : ∀ c ∈ enigma2_with_checksum P, validB c = true := by
    rw [hW]
    intro c hc
    rcases List.mem_cons.mp hc with h | h
    · subst h; simp [validB, g01]
    · rcases List.mem_cons.mp h with h2 | h2
      · subst h2; simp [validB, g11]
      · exact hvdrop c h2
  obtain ⟨K, henc, hKlen, hclass, hKval, hdec⟩ :=
    enigma2_go_roundtrip (enigma2_with_checksum P) 0 0 hWval le_rfl (by norm_num)
      (by omega)
  refine ⟨K, ?_, by omega, hKval, hclass, by rw [hW]; simp [g01], by rw [hW]; simp [g11], ?_⟩
  · simp only [enigma2_c_encrypt, hlen]
    norm_num [KEY_LENGTH, PRODUCT_CODE_SIZE, OPTION_CODE_SIZE, SERIAL_NUMBER_SIZE_ENIGMA2,
      CHECK_SUM_SIZE]
    exact henc
  · have hKlen16 : K.length = 16 := by omega
    simp only [enigma2_c_decrypt, hKlen16]
    norm_num [KEY_LENGTH, PRODUCT_CODE_SIZE, OPTION_CODE_SIZE, SERIAL_NUMBER_SIZE_ENIGMA2,
      CHECK_SUM_SIZE]
    have hget1 : (enigma2_with_checksum P)[1]? = some (Char.ofNat n1) := by
      rw [hW]; simp
    simp only [hdec, hget1]
    -- the final checksum value
    have hcv0 : charValB (Char.ofNat n0) = ((100 - s % 100) % 10 : Int) := by
      simp [charValB, g01, g02]
      omega
    have hcv1 : charValB (Char.ofNat n1) = (((100 - s % 100) / 10) % 10 : Int) := by
      simp [charValB, g11, g12]
      omega
    have hlin : ∀ t : Int, enigma2_checksum_go (P.drop 2) 2 t = t - 1 + s := by
      intro t
      have h2 := checksum_shift (P.drop 2) 2 (t - 1) 1
      rw [show t - 1 + 1 = t from by ring] at h2
      rw [h2, hs]
    have hWsum : enigma2_checksum_go (enigma2_with_checksum P) 0 0 =
        (100 - s % 100) % 10 + 1 + 2 * (((100 - s % 100) / 10) % 10) + (s - 1) := by
      rw [hW]
      show enigma2_checksum_go (P.drop 2) 2 _ = _
      rw [hcv0, hcv1, hlin]
      push_cast
      ring
    rw [hWsum]
    have hc1v : ((Char.ofNat n1).toNat : Int) - 48 = ((100 - s % 100) / 10) % 10 := by
      rw [g12]
      omega
    rw [hc1v]
    have hzero : ((100 - s % 100) % 10 + 1 + 2 * (((100 - s % 100) / 10) % 10) + (s - 1) +
        8 * (((100 - s % 100) / 10) % 10)).tmod 100 = 0 := by
      rw [Int.tmod_eq_emod (by omega) (by norm_num)]
      have : (100 - s % 100) % 10 + 1 + 2 * (((100 - s % 100) / 10) % 10) + (s - 1) +
          8 * (((100 - s % 100) / 10) % 10) =
          (100 - s % 100) % 10 + 10 * (((100 - s % 100) / 10) % 10) + s := by ring
      rw [this]
      omega
    rw [hzero]
    simp

theorem d10_facts :
    ∀ k, k < 10 →
      vecAtI ENIGMA2_D_ROTOR_10 (k : Nat) = some ((ENIGMA2_D_ROTOR_10.get? k).getD 0) ∧
        (ENIGMA2_D_ROTOR_10.get? k).getD 0 < 10 := by decide

theorem d26_facts :
    ∀ k, k < 26 →
      vecAtI ENIGMA2_D_ROTOR_26 (k : Nat) = some ((ENIGMA2_D_ROTOR_26.get? k).getD 0) ∧
        (ENIGMA2_D_ROTOR_26.get? k).getD 0 < 26 := by decide

theorem enigma2_decode_go_facts (cs : List Char) :
    ∀ (i : Nat) (k : Int), (∀ c ∈ cs, validB c = true) → 0 ≤ k →
      ∃ out, enigma2_decrypt_go cs i k = some (out, enigma2_checksum_go out i k) ∧
        out.length = cs.length ∧
        (∀ j, (out.get? j).map Char.isDigit = (cs.get? j).map Char.isDigit) ∧
        (∀ c ∈ out, validB c = true) := by
  induction cs with
  | nil =>
    intro i k _ _
    exact ⟨[], rfl, rfl, fun j => rfl, by simp⟩
  | cons ch rest ih =>
    intro i k hval hk0
    have hchv : validB ch = true := hval ch (List.mem_cons_self ch rest)
    by_cases hd : ch.isDigit = true
    · obtain ⟨hb1, hb2⟩ := (isDigit_iff ch).mp hd
      obtain ⟨m, hm⟩ : ∃ m : Nat, (m : Int) = (ch.toNat : Int) - 48 := ⟨ch.toNat - 48, by omega⟩
      have hmlt : m < 10 := by omega
      obtain ⟨hD, hDlt⟩ := d10_facts m hmlt
      obtain ⟨v, hv⟩ : ∃ v, (ENIGMA2_D_ROTOR_10.get? m).getD 0 = v := ⟨_, rfl⟩
      rw [hv] at hD hDlt
      have hts0 : 0 ≤ ((v : Int) + k) % 10 := Int.emod_nonneg _ (by norm_num)
      have htslt : ((v : Int) + k) % 10 < 10 := Int.emod_lt_of_pos _ (by norm_num)
      obtain ⟨t, ht⟩ : ∃ t : Nat, (t : Int) = ((v : Int) + k) % 10 :=
        ⟨_, Int.toNat_of_nonneg hts0⟩
      have htlt : t < 10 := by omega
      obtain ⟨g1, g2, g3⟩ := digit_char_facts t htlt
      have hcv : charValB (Char.ofNat (t + 48)) = ((v : Int) + k) % 10 := by
        simp [charValB, g1, g2]
        omega
      obtain ⟨out, hgo, hlen2, hclass, hovals⟩ :=
        ih (i + 1) (k + (i : Int) + ((v : Int) + k) % 10 + (i : Int) * (((v : Int) + k) % 10))
          (fun c hc => hval c (List.mem_cons_of_mem _ hc))
          (by
            have : 0 ≤ (i : Int) * (((v : Int) + k) % 10) :=
              mul_nonneg (by exact_mod_cast Nat.zero_le i) hts0
            omega)
      refine ⟨Char.ofNat (t + 48) :: out, ?_, by simp [hlen2], ?_, ?_⟩
      · simp only [enigma2_decrypt_go, hd, if_true, ← hm, hD]
        rw [Int.tmod_eq_emod (by omega) (by norm_num)]
        have hchar : ((((v : Int) + k) % 10) + 48).toNat = t + 48 := by omega
        rw [hchar, hgo]
        simp only [Option.map_some]
        congr 2
        simp [enigma2_checksum_go, hcv]
      · intro j
        cases j with
        | zero => simp [g1, hd]
        | succ j => simpa using hclass j
      · intro c hc
        rcases List.mem_cons.mp hc with h | h
        · subst h
          simp [validB, g1]
        · exact hovals c h
    · have hdfalse : ch.isDigit = false := by simp at hd; exact hd
      have hu : ch.isUpper = true := by
        simp [validB, hdfalse] at hchv
        exact hchv
      obtain ⟨hb1, hb2⟩ := (isUpper_iff ch).mp hu
      obtain ⟨m, hm⟩ : ∃ m : Nat, (m : Int) = (ch.toNat : Int) - 65 := ⟨ch.toNat - 65, by omega⟩
      have hmlt : m < 26 := by omega
      obtain ⟨hD, hDlt⟩ := d26_facts m hmlt
      obtain ⟨v, hv⟩ : ∃ v, (ENIGMA2_D_ROTOR_26.get? m).getD 0 = v := ⟨_, rfl⟩
      rw [hv] at hD hDlt
      have hts0 : 0 ≤ ((v : Int) + k) % 26 := Int.emod_nonneg _ (by norm_num)
      have htslt : ((v : Int) + k) % 26 < 26 := Int.emod_lt_of_pos _ (by norm_num)
      obtain ⟨t, ht⟩ : ∃ t : Nat, (t : Int) = ((v : Int) + k) % 26 :=
        ⟨_, Int.toNat_of_nonneg hts0⟩
      have htlt : t < 26 := by omega
      obtain ⟨g1, g2, g3⟩ := letter_char_facts t htlt
      have hcv : charValB (Char.ofNat (65 + t)) = ((v : Int) + k) % 26 := by
        simp [charValB, g1, g2]
        omega
      obtain ⟨out, hgo, hlen2, hclass, hovals⟩ :=
        ih (i + 1) (k + (i : Int) + ((v : Int) + k) % 26 + (i : Int) * (((v : Int) + k) % 26))
          (fun c hc => hval c (List.mem_cons_of_mem _ hc))
          (by
            have : 0 ≤ (i : Int) * (((v : Int) + k) % 26) :=
              mul_nonneg (by exact_mod_cast Nat.zero_le i) hts0
            omega)
      refine ⟨Char.ofNat (65 + t) :: out, ?_, by simp [hlen2], ?_, ?_⟩
      · simp only [enigma2_decrypt_go, hdfalse, Bool.false_eq_true, if_false, ← hm, hD]
        rw [Int.tmod_eq_emod (by omega) (by norm_num)]
        have hchar : (65 + (((v : Int) + k) % 26)).toNat = 65 + t := by omega
        rw [hchar, hgo]
        simp only [Option.map_some]
        congr 2
        simp [enigma2_checksum_go, hcv]
      · intro j
        cases j with
        | zero => simp [g1, hdfalse]
        | succ j => simpa using hclass j
      · intro c hc
        rcases List.mem_cons.mp hc with h | h
        · subst h
          simp [validB, g1, g3]
        · exact hovals c h

/-! ## Facts about the stoi model -/

/-- The integer value of a digit string, as a left fold. -/
def digitsToInt (s : List Char) : Int :=
  s.foldl (fun a c => a * 10 + ((c.toNat : Int) - 48)) 0

theorem stoiLoop_digits (s : List Char) :
    ∀ acc : Int, (∀ c ∈ s, c.isDigit = true) →
      stoiLoop s acc = s.foldl (fun a c => a * 10 + ((c.toNat : Int) - 48)) acc := by
  induction s with
  | nil => intro acc _; rfl
  | cons c rest ih =>
    intro acc hdig
    have hc : c.isDigit = true := hdig c (List.mem_cons_self c rest)
    simp only [stoiLoop, hc, if_true, List.foldl_cons]
    exact ih _ (fun x hx => hdig x (List.mem_cons_of_mem _ hx))

theorem stoiModel_digits (s : List Char) (hne : s ≠ [])
    (hdig : ∀ c ∈ s, c.isDigit = true) : stoiModel s = some (digitsToInt s) := by
  match s with
  | c :: rest =>
    have hc : c.isDigit = true := hdig c (List.mem_cons_self c rest)
    have hcm : c ≠ '-' := by
      intro h
      rw [h] at hc
      simp at hc
    have hcp : c ≠ '+' := by
      intro h
      rw [h] at hc
      simp at hc
    simp only [stoiModel, if_neg hcm, if_neg hcp, hc, if_true]
    rw [stoiLoop_digits _ 0 hdig]
    rfl

theorem stoiModel_err (c : Char) (t : List Char) (h1 : c.isDigit = false) (h2 : c ≠ '-')
    (h3 : c ≠ '+') : stoiModel (c :: t) = none := by
  simp [stoiModel, h2, h3, h1]

/-! ## The claims -/

/-- C9: each rotor table is a bijection on its index range (sorted it is
0 .. N-1, and each value occurs exactly once), and the Cipher-B decode
tables are the exact inverses of the encode tables. -/
theorem C9_rotor_tables :
    (ENIGMA_C_ROTOR.Perm (List.range 16) ∧ ∀ x, x < 16 → ENIGMA_C_ROTOR.count x = 1) ∧
    (ENIGMA2_E_ROTOR_10.Perm (List.range 10) ∧ ∀ x, x < 10 → ENIGMA2_E_ROTOR_10.count x = 1) ∧
    (ENIGMA2_D_ROTOR_10.Perm (List.range 10) ∧ ∀ x, x < 10 → ENIGMA2_D_ROTOR_10.count x = 1) ∧
    (ENIGMA2_E_ROTOR_26.Perm (List.range 26) ∧ ∀ x, x < 26 → ENIGMA2_E_ROTOR_26.count x = 1) ∧
    (ENIGMA2_D_ROTOR_26.Perm (List.range 26) ∧ ∀ x, x < 26 → ENIGMA2_D_ROTOR_26.count x = 1) ∧
    (∀ x, x < 10 → (ENIGMA2_E_ROTOR_10.get? x).bind ENIGMA2_D_ROTOR_10.get? = some x) ∧
    (∀ x, x < 26 → (ENIGMA2_E_ROTOR_26.get? x).bind ENIGMA2_D_ROTOR_26.get? = some x) := by
  refine ⟨⟨by decide, by decide⟩, ⟨by decide, by decide⟩, ⟨by decide, by decide⟩,
    ⟨by decide, by decide⟩, ⟨by decide, by decide⟩, by decide, by decide⟩

/-- C1: the known vectors.  The Cipher-A vector for serial 0003333016 and
option 4, the three Cipher-B vectors, and the Cipher-B decode of
9225940719507747 with its product, serial and option fields. -/
theorem C1_known_vectors :
    enigma_c_encrypt (nettool_plaintext "0003333016".toList 4) 12 =
      some "5dabade112dd".toList ∧
    enigma2_c_encrypt (enigma2_input_key "6963".toList "0000607".toList "007".toList) =
      some "6406257948597747".toList ∧
    enigma2_c_encrypt (enigma2_input_key "6963".toList "1234567".toList "007".toList) =
      some "9225940719507747".toList ∧
    enigma2_c_encrypt (enigma2_input_key "7001".toList "1234567".toList "002".toList) =
      some "8944937150971162".toList ∧
    ∃ dk, enigma2_c_decrypt "9225940719507747".toList = some dk ∧ dk ≠ [] ∧
      (dk.drop PRODUCT_LOCATION).take PRODUCT_CODE_SIZE = "6963".toList ∧
      (dk.drop SERIAL_LOCATION).take SERIAL_NUMBER_SIZE_ENIGMA2 = "1234567".toList ∧
      (dk.drop OPTION_LOCATION).take OPTION_CODE_SIZE = "007".toList := by
  refine ⟨by decide, by decide, by decide, by decide, ?_⟩
  obtain ⟨K, henc, _, _, _, _, _, hdec⟩ :=
    enigma2_roundtrip "0069631234567007".toList (by decide) (by decide)
  have hKlit : K = "9225940719507747".toList := by
    have h2 : enigma2_c_encrypt "0069631234567007".toList =
        some "9225940719507747".toList := by decide
    rw [henc] at h2
    exact Option.some_injective _ h2
  rw [hKlit] at hdec
  have hWlit : enigma2_with_checksum "0069631234567007".toList =
      "8569631234567007".toList := by decide
  rw [hWlit] at hdec
  exact ⟨_, hdec, by decide, by decide, by decide, by decide⟩

/-- C2: Cipher-B round trip over all valid 16-character plaintexts.  Decode
of an encode output never signals empty; it returns exactly the plaintext
with the two checksum digits Encode wrote at positions 0 and 1, and agrees
with the input on positions 2 - 15. -/
theorem C2_enigma2_roundtrip (P : List Char) (hlen : P.length = 16)
    (hval : ∀ c ∈ P, validB c = true) :
    ∃ K, enigma2_c_encrypt P = some K ∧
      enigma2_c_decrypt K = some (enigma2_with_checksum P) ∧
      (enigma2_with_checksum P).drop 2 = P.drop 2 ∧
      enigma2_with_checksum P ≠ [] := by
  obtain ⟨K, henc, _, _, _, _, _, hdec⟩ := enigma2_roundtrip P hlen hval
  exact ⟨K, henc, hdec, rfl, by simp [enigma2_with_checksum]⟩

theorem C2_enigma2_roundtrip_witness :
    ∃ K, enigma2_c_encrypt "0069631234567007".toList = some K ∧
      enigma2_c_decrypt K = some (enigma2_with_checksum "0069631234567007".toList) ∧
      (enigma2_with_checksum "0069631234567007".toList).drop 2 =
        "0069631234567007".toList.drop 2 ∧
      enigma2_with_checksum "0069631234567007".toList ≠ [] :=
  C2_enigma2_roundtrip "0069631234567007".toList (by decide) (by decide)

/-- C3 fails as stated: Cipher-A decode emits lowercase hex, so the round
trip on an uppercase plaintext returns the lowercased string, not the
input. -/
theorem C3_counterexample :
    (enigma_c_encrypt "AAAAAAAAAAAA".toList 12).bind (fun k => enigma_c_decrypt k 12) ≠
      some "AAAAAAAAAAAA".toList := by decide

/-- C3 amended: for every valid 12-hex-character plaintext the round trip
returns the plaintext with its letters lowered, hence the plaintext itself
whenever it contains no uppercase letter. -/
theorem C3_roundtrip_lower (P : List Char) (hlen : P.length = 12)
    (hval : ∀ c ∈ P, isXDigit c = true) :
    ∃ K, enigma_c_encrypt P 12 = some K ∧
      enigma_c_decrypt K 12 = some (P.map asciiToLower) ∧
      ((∀ c ∈ P, c.isUpper = false) → enigma_c_decrypt K 12 = some P) := by
  obtain ⟨K, h1, _, h2⟩ := enigma_c_roundtrip P hlen hval
  refine ⟨K, h1, h2, fun hlow => ?_⟩
  rw [h2]
  have hmap : P.map asciiToLower = P := by
    have h3 : P.map asciiToLower = P.map id :=
      List.map_congr_left (fun c hc => by simp [asciiToLower, hlow c hc])
    rw [h3, List.map_id]
  rw [hmap]

theorem C3_roundtrip_lower_witness :
    ∃ K, enigma_c_encrypt "0123456789ab".toList 12 = some K ∧
      enigma_c_decrypt K 12 = some ("0123456789ab".toList.map asciiToLower) ∧
      ((∀ c ∈ "0123456789ab".toList, c.isUpper = false) →
        enigma_c_decrypt K 12 = some "0123456789ab".toList) :=
  C3_roundtrip_lower "0123456789ab".toList (by decide) (by decide)

/-- C6: the master bypass.  For every option and serial number the key
bladerules validates unconditionally, before any decoding; the comparison
is case-sensitive exact equality, so a case variant does not bypass. -/
theorem C6_master_bypass (option : Int) (serialNumber : List Char) :
    enigma_c_check_option_key option "bladerules".toList serialNumber = some true ∧
    enigma_c_check_option_key option "Bladerules".toList serialNumber ≠ some true := by
  constructor
  · rfl
  · intro h
    have h2 : enigma_c_check_option_key option "Bladerules".toList serialNumber = none := rfl
    rw [h2] at h
    exact Option.noConfusion h

/-- C5: over the valid 16-character alphabet, Cipher-B decode always
returns normally (never an exception or abort), its internal accumulator
equals the per-position sum of i + d + i * d over the 16 decoded values,
and the result is empty exactly when that sum plus 8 times the value of
the decoded position-1 character (taken as character minus the zero digit,
as the source does) is not divisible by 100; otherwise it is the full
16-character decoded plaintext. -/
theorem C5_decode_gate (K : List Char) (hlen : K.length = 16)
    (hval : ∀ c ∈ K, validB c = true) :
    ∃ out c1, enigma2_decrypt_go K 0 0 = some (out, enigma2_checksum_go out 0 0) ∧
      out.length = 16 ∧ out[1]? = some c1 ∧
      ((enigma2_checksum_go out 0 0 + 8 * ((c1.toNat : Int) - 48)).tmod 100 ≠ 0 →
        enigma2_c_decrypt K = some []) ∧
      ((enigma2_checksum_go out 0 0 + 8 * ((c1.toNat : Int) - 48)).tmod 100 = 0 →
        enigma2_c_decrypt K = some out) := by
  obtain ⟨out, hgo, holen, _, _⟩ := enigma2_decode_go_facts K 0 0 hval le_rfl
  have holen16 : out.length = 16 := by rw [holen, hlen]
  obtain ⟨c1, hc1⟩ : ∃ c1, out[1]? = some c1 := by
    cases out with
    | nil => simp at holen16
    | cons a t =>
      cases t with
      | nil => simp at holen16
      | cons b t2 => exact ⟨b, by simp⟩
  have hunfold : enigma2_c_decrypt K =
      if (enigma2_checksum_go out 0 0 + 8 * ((c1.toNat : Int) - 48)).tmod 100 ≠ 0
      then some [] else some out := by
    simp only [enigma2_c_decrypt, hlen]
    norm_num [KEY_LENGTH, PRODUCT_CODE_SIZE, OPTION_CODE_SIZE, SERIAL_NUMBER_SIZE_ENIGMA2,
      CHECK_SUM_SIZE]
    simp only [hgo, hc1]
  refine ⟨out, c1, hgo, holen16, hc1, fun hgate => ?_, fun hgate => ?_⟩
  · rw [hunfold, if_pos hgate]
  · rw [hunfold, if_neg (by simp [hgate])]

theorem C5_decode_gate_witness :
    ∃ out c1,
      enigma2_decrypt_go "9225940719507747".toList 0 0 =
        some (out, enigma2_checksum_go out 0 0) ∧
      out.length = 16 ∧ out[1]? = some c1 ∧
      ((enigma2_checksum_go out 0 0 + 8 * ((c1.toNat : Int) - 48)).tmod 100 ≠ 0 →
        enigma2_c_decrypt "9225940719507747".toList = some []) ∧
      ((enigma2_checksum_go out 0 0 + 8 * ((c1.toNat : Int) - 48)).tmod 100 = 0 →
        enigma2_c_decrypt "9225940719507747".toList = some out) :=
  C5_decode_gate "9225940719507747".toList (by decide) (by decide)

/-- C10: per-position character-class preservation.  Encode maps digits to
digits and letters to letters position by position relative to the
checksum-overwritten input (whose positions 0 and 1 are always digits, the
rest being the input), and emits only digits and uppercase letters; a
successful decode likewise matches the class of every ciphertext
position. -/
theorem C10_class_preservation (P : List Char) (hlen : P.length = 16)
    (hval : ∀ c ∈ P, validB c = true) :
    (∃ K, enigma2_c_encrypt P = some K ∧ K.length = 16 ∧
      (∀ c ∈ K, validB c = true) ∧
      (∀ j, (K.get? j).map Char.isDigit =
        ((enigma2_with_checksum P).get? j).map Char.isDigit) ∧
      ((enigma2_with_checksum P)[0]?).map Char.isDigit = some true ∧
      ((enigma2_with_checksum P)[1]?).map Char.isDigit = some true ∧
      (∀ j, (enigma2_with_checksum P).get? (j + 2) = P.get? (j + 2))) ∧
    (∀ D, enigma2_c_decrypt P = some D → D ≠ [] →
      D.length = 16 ∧
      ∀ j, (D.get? j).map Char.isDigit = (P.get? j).map Char.isDigit) := by
  constructor
  · obtain ⟨K, henc, hKlen, hKval, hclass, h0, h1, _⟩ := enigma2_roundtrip P hlen hval
    refine ⟨K, henc, hKlen, hKval, hclass, h0, h1, fun j => ?_⟩
    show (Char.ofNat _ :: Char.ofNat _ :: P.drop 2).get? (j + 2) = P.get? (j + 2)
    rw [show ∀ a b : Char, ∀ t : List Char, (a :: b :: t).get? (j + 2) = t.get? j
      from fun a b t => rfl]
    rw [List.get?_eq_getElem?, List.get?_eq_getElem?, List.getElem?_drop]
    rw [Nat.add_comm 2 j]
  · intro D hdecD hne
    obtain ⟨out, hgo, holen, hclass, _⟩ := enigma2_decode_go_facts P 0 0 hval le_rfl
    have holen16 : out.length = 16 := by rw [holen, hlen]
    obtain ⟨c1, hc1⟩ : ∃ c1, out[1]? = some c1 := by
      cases out with
      | nil => simp at holen16
      | cons a t =>
        cases t with
        | nil => simp at holen16
        | cons b t2 => exact ⟨b, by simp⟩
    have hunfold : enigma2_c_decrypt P =
        if (enigma2_checksum_go out 0 0 + 8 * ((c1.toNat : Int) - 48)).tmod 100 ≠ 0
        then some [] else some out := by
      simp only [enigma2_c_decrypt, hlen]
      norm_num [KEY_LENGTH, PRODUCT_CODE_SIZE, OPTION_CODE_SIZE, SERIAL_NUMBER_SIZE_ENIGMA2,
        CHECK_SUM_SIZE]
      simp only [hgo, hc1]
    rw [hunfold] at hdecD
    by_cases hgate : (enigma2_checksum_go out 0 0 + 8 * ((c1.toNat : Int) - 48)).tmod 100 ≠ 0
    · rw [if_pos hgate] at hdecD
      exact absurd (Option.some_injective _ hdecD).symm hne
    · rw [if_neg hgate] at hdecD
      obtain rfl : out = D := Option.some_injective _ hdecD
      exact ⟨holen16, hclass⟩

theorem C10_class_preservation_witness :
    (∃ K, enigma2_c_encrypt "0069631234567007".toList = some K ∧ K.length = 16 ∧
      (∀ c ∈ K, validB c = true) ∧
      (∀ j, (K.get? j).map Char.isDigit =
        ((enigma2_with_checksum "0069631234567007".toList).get? j).map Char.isDigit) ∧
      ((enigma2_with_checksum "0069631234567007".toList)[0]?).map Char.isDigit = some true ∧
      ((enigma2_with_checksum "0069631234567007".toList)[1]?).map Char.isDigit = some true ∧
      (∀ j, (enigma2_with_checksum "0069631234567007".toList).get? (j + 2) =
        "0069631234567007".toList.get? (j + 2))) ∧
    (∀ D, enigma2_c_decrypt "0069631234567007".toList = some D → D ≠ [] →
      D.length = 16 ∧
      ∀ j, (D.get? j).map Char.isDigit =
        ("0069631234567007".toList.get? j).map Char.isDigit) :=
  C10_class_preservation "0069631234567007".toList (by decide) (by decide)

/-- C4 fails as stated for Cipher-A: the known-vector key generated from
serial 0003333016 with option 4 is rejected by the check for the very same
option and serial, because the check reverses the first ten decoded
characters while generation placed the reversed serial at positions
2 - 11. -/
theorem C4_counterexample :
    enigma_c_encrypt (nettool_plaintext "0003333016".toList 4) 12 =
      some "5dabade112dd".toList ∧
    enigma_c_check_option_key 4 "5dabade112dd".toList "0003333016".toList ≠ some true := by
  exact ⟨by decide, by decide⟩

/-- C4 amended: the Cipher-B half holds: a key encoded from any in-range
product, serial and option validates exactly against the integer value of
its option field, true for the matching option and false for every other.
The Cipher-A half fails on the code: the check of the generated
known-vector key returns false even for the matching option and serial. -/
theorem C4_validation_symmetry (productCode serialNumber optionCode : List Char) (o : Int)
    (hp : productCode.length = 4) (hs : serialNumber.length = 7)
    (ho : optionCode.length = 3)
    (hpd : ∀ c ∈ productCode, c.isDigit = true)
    (hsd : ∀ c ∈ serialNumber, c.isDigit = true)
    (hod : ∀ c ∈ optionCode, c.isDigit = true) :
    (∃ K, enigma2_c_encrypt (enigma2_input_key productCode serialNumber optionCode) =
        some K ∧
      enigma2_c_check_option_key o K = some (digitsToInt optionCode == o)) ∧
    enigma_c_check_option_key 4 "5dabade112dd".toList "0003333016".toList = some false ∧
    enigma_c_encrypt (nettool_plaintext "0003333016".toList 4) 12 =
      some "5dabade112dd".toList := by
  refine ⟨?_, by decide, by decide⟩
  have hlenP : (enigma2_input_key productCode serialNumber optionCode).length = 16 := by
    simp [enigma2_input_key, hp, hs, ho]
  have hvalP : ∀ c ∈ enigma2_input_key productCode serialNumber optionCode,
      validB c = true := by
    intro c hc
    simp only [enigma2_input_key] at hc
    rcases List.mem_append.mp hc with h | h
    · rcases List.mem_append.mp h with h2 | h2
      · rcases List.mem_append.mp h2 with h3 | h3
        · have h0 : c = '0' := by
            rcases List.mem_cons.mp h3 with h4 | h4
            · exact h4
            · rcases List.mem_cons.mp h4 with h5 | h5
              · exact h5
              · exact absurd h5 (List.not_mem_nil c)
          rw [h0]
          decide
        · simp [validB, hpd c h3]
      · simp [validB, hsd c h2]
    · simp [validB, hod c h]
  obtain ⟨K, henc, hKlen, _, _, _, _, hdec⟩ :=
    enigma2_roundtrip (enigma2_input_key productCode serialNumber optionCode) hlenP hvalP
  refine ⟨K, henc, ?_⟩
  have hKne : K.isEmpty = false := by
    cases K with
    | nil => simp at hKlen
    | cons a t => rfl
  have hWne : (enigma2_with_checksum
      (enigma2_input_key productCode serialNumber optionCode)).isEmpty = false := rfl
  have hdropP : (enigma2_input_key productCode serialNumber optionCode).drop 2 =
      productCode ++ serialNumber ++ optionCode := rfl
  have hopt : ((enigma2_with_checksum
      (enigma2_input_key productCode serialNumber optionCode)).drop
        OPTION_LOCATION).take OPTION_CODE_SIZE = optionCode := by
    show ((productCode ++ serialNumber ++ optionCode).drop 11).take 3 = optionCode
    rw [show (11 : Nat) = (productCode ++ serialNumber).length + 0 from by
        simp [hp, hs],
      List.drop_append 0, List.drop_zero, List.take_of_length_le (by rw [ho])]
  have hone : optionCode ≠ [] := by
    cases optionCode with
    | nil => simp at ho
    | cons a t => exact List.cons_ne_nil a t
  have hstoi : stoiModel ((((enigma2_with_checksum
      (enigma2_input_key productCode serialNumber optionCode)).drop
        OPTION_LOCATION)).take OPTION_CODE_SIZE) = some (digitsToInt optionCode) := by
    rw [hopt]
    exact stoiModel_digits optionCode hone hod
  simp only [enigma2_c_check_option_key, hKne, Bool.false_eq_true, if_false, hdec, hWne,
    hstoi]

theorem C4_validation_symmetry_witness :
    (∃ K, enigma2_c_encrypt
        (enigma2_input_key "6963".toList "1234567".toList "007".toList) = some K ∧
      enigma2_c_check_option_key 7 K = some (digitsToInt "007".toList == 7)) ∧
    enigma_c_check_option_key 4 "5dabade112dd".toList "0003333016".toList = some false ∧
    enigma_c_encrypt (nettool_plaintext "0003333016".toList 4) 12 =
      some "5dabade112dd".toList :=
  C4_validation_symmetry "6963".toList "1234567".toList "007".toList 7 (by decide) (by decide)
    (by decide) (by decide) (by decide) (by decide)

/-- The lowering of a character does not change whether it is a hex
digit. -/
theorem isXDigit_toLower (c : Char) : isXDigit (asciiToLower c) = isXDigit c := by
  by_cases hu : c.isUpper = true
  · obtain ⟨h1, h2⟩ := (isUpper_iff c).mp hu
    obtain hh := Char.ofNat_toNat c
    rw [← hh]
    generalize hg : c.toNat = n at h1 h2
    interval_cases n <;> decide
  · have hfu : c.isUpper = false := by simp at hu; exact hu
    rw [show asciiToLower c = c from by simp [asciiToLower, hfu]]

theorem enigma_c_encrypt_go_bad (cs : List Char) :
    ∀ i a, (∃ c ∈ cs, isXDigit c = false) → enigma_c_encrypt_go cs i a = none := by
  induction cs with
  | nil =>
    intro i a h
    obtain ⟨c, hc, _⟩ := h
    exact absurd hc (List.not_mem_nil c)
  | cons ch rest ih =>
    intro i a h
    obtain ⟨c, hc, hbad⟩ := h
    by_cases hx : isXDigit ch = true
    · have hcrest : c ∈ rest := by
        rcases List.mem_cons.mp hc with h2 | h2
        · subst h2
          rw [hx] at hbad
          exact absurd hbad (by simp)
        · exact h2
      simp only [enigma_c_encrypt_go, isXDigit_toLower, hx, if_true]
      obtain ⟨hget, _, _⟩ :=
        rotor_facts ((hexValN (asciiToLower ch) + i) % 16) (Nat.mod_lt _ (by norm_num))
      obtain ⟨r, hr⟩ : ∃ r, (ENIGMA_C_ROTOR.get?
          ((hexValN (asciiToLower ch) + i) % 16)).getD 0 = r := ⟨_, rfl⟩
      rw [hr] at hget
      simp only [hget]
      rw [ih (i + 1) _ ⟨c, hcrest, hbad⟩]
      rfl
    · have hxf : isXDigit ch = false := by simp at hx; exact hx
      simp only [enigma_c_encrypt_go, isXDigit_toLower, hxf, Bool.false_eq_true, if_false]

theorem enigma_c_decrypt_go_bad (cs : List Char) :
    ∀ i a, (∃ c ∈ cs, isXDigit c = false) → enigma_c_decrypt_go cs i a = none := by
  induction cs with
  | nil =>
    intro i a h
    obtain ⟨c, hc, _⟩ := h
    exact absurd hc (List.not_mem_nil c)
  | cons ch rest ih =>
    intro i a h
    obtain ⟨c, hc, hbad⟩ := h
    by_cases hx : isXDigit ch = true
    · have hcrest : c ∈ rest := by
        rcases List.mem_cons.mp hc with h2 | h2
        · subst h2
          rw [hx] at hbad
          exact absurd hbad (by simp)
        · exact h2
      simp only [enigma_c_decrypt_go, isXDigit_toLower, hx, if_true]
      rw [ih (i + 1) _ ⟨c, hcrest, hbad⟩]
      rfl
    · have hxf : isXDigit ch = false := by simp at hx; exact hx
      simp only [enigma_c_decrypt_go, isXDigit_toLower, hxf, Bool.false_eq_true, if_false]

theorem enigma2_decrypt_go_bad (cs : List Char) :
    ∀ i k, (∃ c ∈ cs, validB c = false) → enigma2_decrypt_go cs i k = none := by
  induction cs with
  | nil =>
    intro i k h
    obtain ⟨c, hc, _⟩ := h
    exact absurd hc (List.not_mem_nil c)
  | cons ch rest ih =>
    intro i k h
    obtain ⟨c, hc, hbad⟩ := h
    by_cases hv : validB ch = true
    · have hcrest : c ∈ rest := by
        rcases List.mem_cons.mp hc with h2 | h2
        · subst h2
          rw [hv] at hbad
          exact absurd hbad (by simp)
        · exact h2
      by_cases hd : ch.isDigit = true
      · obtain ⟨hb1, hb2⟩ := (isDigit_iff ch).mp hd
        obtain ⟨m, hm⟩ : ∃ m : Nat, (m : Int) = (ch.toNat : Int) - 48 :=
          ⟨ch.toNat - 48, by omega⟩
        obtain ⟨hD, _⟩ := d10_facts m (by omega)
        simp only [enigma2_decrypt_go, hd, if_true, ← hm, hD]
        rw [ih (i + 1) _ ⟨c, hcrest, hbad⟩]
        rfl
      · have hdf : ch.isDigit = false := by simp at hd; exact hd
        have hu : ch.isUpper = true := by
          simp [validB, hdf] at hv
          exact hv
        obtain ⟨hb1, hb2⟩ := (isUpper_iff ch).mp hu
        obtain ⟨m, hm⟩ : ∃ m : Nat, (m : Int) = (ch.toNat : Int) - 65 :=
          ⟨ch.toNat - 65, by omega⟩
        obtain ⟨hD, _⟩ := d26_facts m (by omega)
        simp only [enigma2_decrypt_go, hdf, Bool.false_eq_true, if_false, ← hm, hD]
        rw [ih (i + 1) _ ⟨c, hcrest, hbad⟩]
        rfl
    · have hvf : validB ch = false := by simp at hv; exact hv
      have hdf : ch.isDigit = false := by
        rcases Bool.eq_false_or_eq_true ch.isDigit with h2 | h2
        · exfalso
          rw [validB, h2] at hvf
          simp at hvf
        · exact h2
      have huf : ch.isUpper = false := by
        rcases Bool.eq_false_or_eq_true ch.isUpper with h2 | h2
        · exfalso
          rw [validB, h2, hdf] at hvf
          simp at hvf
        · exact h2
      have hnone : vecAtI ENIGMA2_D_ROTOR_26 ((ch.toNat : Int) - 65) = none := by
        by_cases hlt : ch.toNat < 65
        · simp only [vecAtI]
          rw [if_pos (by omega)]
        · have h90 : 90 < ch.toNat := by
            rcases Nat.lt_or_ge 90 ch.toNat with h2 | h2
            · exact h2
            · exfalso
              have h3 := (isUpper_iff ch).mpr ⟨by omega, h2⟩
              rw [huf] at h3
              exact Bool.noConfusion h3
          simp only [vecAtI]
          rw [if_neg (by omega)]
          apply List.get?_eq_none.mpr
          have hlen26 : ENIGMA2_D_ROTOR_26.length = 26 := by decide
          rw [hlen26]
          omega
      simp only [enigma2_decrypt_go, hdf, Bool.false_eq_true, if_false, hnone]

/-- C7 fails as stated for Cipher-B Encode: on a 16-character input that
contains the lowercase letter a, outside the digit / uppercase class, the
encoder does not signal any error but returns a normal key. -/
theorem C7_counterexample :
    validB 'a' = false ∧ 'a' ∈ "00AAAAAAAAAAAAAa".toList ∧
    enigma2_c_encrypt "00AAAAAAAAAAAAAa".toList = some "99VFQKAYXKLFTSMY".toList := by
  exact ⟨by decide, by decide, by decide⟩

/-- C7 amended: Cipher-A Encode and Decode do re-validate and signal an
error on any non-hex character, and Cipher-B Decode also returns no normal
output on a character outside its class (by an out-of-range table access,
not a validation); but Cipher-B Encode performs no re-validation and
produces a normal output string on the concrete out-of-class input. -/
theorem C7_input_validation (P K2 : List Char) (hP : P.length = 12)
    (hbadA : ∃ c ∈ P, isXDigit c = false) (hK2 : K2.length = 16)
    (hbadB : ∃ c ∈ K2, validB c = false) :
    enigma_c_encrypt P 12 = none ∧ enigma_c_decrypt P 12 = none ∧
    enigma2_c_decrypt K2 = none ∧
    enigma2_c_encrypt "00AAAAAAAAAAAAAa".toList = some "99VFQKAYXKLFTSMY".toList := by
  have htake : P.take 12 = P := List.take_of_length_le (by omega)
  refine ⟨?_, ?_, ?_, by decide⟩
  · simp only [enigma_c_encrypt, hP]
    norm_num
    rw [htake]
    exact enigma_c_encrypt_go_bad P 0 0 hbadA
  · simp only [enigma_c_decrypt, hP]
    norm_num
    rw [htake]
    exact enigma_c_decrypt_go_bad P 0 0 hbadA
  · simp only [enigma2_c_decrypt, hK2]
    norm_num [KEY_LENGTH, PRODUCT_CODE_SIZE, OPTION_CODE_SIZE, SERIAL_NUMBER_SIZE_ENIGMA2,
      CHECK_SUM_SIZE]
    rw [enigma2_decrypt_go_bad K2 0 0 hbadB]

theorem C7_input_validation_witness :
    enigma_c_encrypt "00000000000z".toList 12 = none ∧
    enigma_c_decrypt "00000000000z".toList 12 = none ∧
    enigma2_c_decrypt "000000000000000a".toList = none ∧
    enigma2_c_encrypt "00AAAAAAAAAAAAAa".toList = some "99VFQKAYXKLFTSMY".toList :=
  C7_input_validation "00000000000z".toList "000000000000000a".toList (by decide)
    ⟨'z', by decide, by decide⟩ (by decide) ⟨'a', by decide, by decide⟩

/-- C8 fails as stated: the option substring 1a of a successfully decoded
Cipher-A key is not a valid decimal integer, yet the check does not
propagate an error; stoi silently truncates it to 1 and the key validates
as option 1. -/
theorem C8_counterexample :
    enigma_c_encrypt "00000000001a".toList 12 = some "51f45d7adee6".toList ∧
    (enigma_c_decrypt "51f45d7adee6".toList 12).map (fun dk => (dk.drop 10).take 2) =
      some "1a".toList ∧
    (¬ ∀ c ∈ "1a".toList, c.isDigit = true) ∧
    enigma_c_check_option_key 1 "51f45d7adee6".toList "0000000000".toList = some true := by
  exact ⟨by decide, by decide, by decide, by decide⟩

/-- C8 amended: the parse fails loudly (the error propagates and no
boolean is returned) exactly when the extracted option substring offers
stoi no leading decimal digit after an optional sign; when it begins with
a digit, stoi silently truncates at the first non-digit character, and
such a key can validate as the truncated option value, as the concrete key
in the last conjunct does. -/
theorem C8_option_parse (optA optB : Int) (keyA serialNumber dkA keyB dkB : List Char)
    (cA cB : Char) (tA tB : List Char)
    (hA1 : keyA ≠ []) (hA2 : keyA ≠ "bladerules".toList)
    (hA3 : enigma_c_decrypt keyA 12 = some dkA)
    (hA4 : (dkA.take 10).reverse = serialNumber)
    (hA5 : (dkA.drop 10).take 2 = cA :: tA)
    (hA6 : cA.isDigit = false) (hA7 : cA ≠ '-') (hA8 : cA ≠ '+')
    (hB1 : keyB ≠ [])
    (hB2 : enigma2_c_decrypt keyB = some dkB) (hB3 : dkB ≠ [])
    (hB4 : (dkB.drop OPTION_LOCATION).take OPTION_CODE_SIZE = cB :: tB)
    (hB5 : cB.isDigit = false) (hB6 : cB ≠ '-') (hB7 : cB ≠ '+') :
    enigma_c_check_option_key optA keyA serialNumber = none ∧
    enigma2_c_check_option_key optB keyB = none ∧
    enigma_c_check_option_key 1 "51f45d7adee6".toList "0000000000".toList = some true := by
  refine ⟨?_, ?_, by decide⟩
  · have hKe : keyA.isEmpty = false := by
      cases keyA with
      | nil => exact absurd rfl hA1
      | cons a t => rfl
    simp only [enigma_c_check_option_key, hKe, Bool.false_eq_true, if_false,
      if_neg hA2, hA3]
    rw [if_neg (fun h => h hA4), hA5, stoiModel_err cA tA hA6 hA7 hA8]
  · have hKe : keyB.isEmpty = false := by
      cases keyB with
      | nil => exact absurd rfl hB1
      | cons a t => rfl
    have hdke : dkB.isEmpty = false := by
      cases dkB with
      | nil => exact absurd rfl hB3
      | cons a t => rfl
    simp only [enigma2_c_check_option_key, hKe, Bool.false_eq_true, if_false, hB2, hdke,
      hB4, stoiModel_err cB tB hB5 hB6 hB7]

theorem C8_option_parse_witness :
    enigma_c_check_option_key 0 "51f45d7adef5".toList "0000000000".toList = none ∧
    enigma2_c_check_option_key 0 "9225940719507J47".toList = none ∧
    enigma_c_check_option_key 1 "51f45d7adee6".toList "0000000000".toList = some true := by
  obtain ⟨K, henc, _, _, _, _, _, hdec⟩ :=
    enigma2_roundtrip "0069631234567A07".toList (by decide) (by decide)
  have hKlit : K = "9225940719507J47".toList := by
    have h2 : enigma2_c_encrypt "0069631234567A07".toList =
        some "9225940719507J47".toList := by decide
    rw [henc] at h2
    exact Option.some_injective _ h2
  have hWlit : enigma2_with_checksum "0069631234567A07".toList =
      "8569631234567A07".toList := by decide
  rw [hKlit, hWlit] at hdec
  exact C8_option_parse 0 0 "51f45d7adef5".toList "0000000000".toList
    "0000000000ab".toList "9225940719507J47".toList "8569631234567A07".toList 'a' 'A'
    ['b'] "07".toList (by decide) (by decide) (by decide) (by decide) (by decide)
    (by decide) (by decide) (by decide) (by decide) hdec (by decide) (by decide)
    (by decide) (by decide) (by decide)
